import Mathlib

/-!
Verification of the battery-life-prediction tutorial notebooks.

This file embeds, in Lean 4, the data-handling logic of the two notebooks
`cnn_life_predict.ipynb` and `exercise-1_keras.ipynb`:

* the train/validation/test split performed by `get_data` (batch codes from
  group names, `iD['tst'] = batchV == 3`, random validation selection via
  `np.argsort(irnd)[-nval:]`);
* the histogram-based sample weights of `get_data`;
* the auto-MPG preprocessing of the Keras exercise (`dropna`,
  per-column `lambda x: (x - x.mean()) / x.std()`);
* the dense-layer parameter counts of the Sequential models;
* the `log10` target transform and its `10**` inverse;
* the remote-file fetching of the two data loaders.

Machine floats are modelled by exact arithmetic (`ℚ` where the code is
finite-data arithmetic, `ℝ` where square roots and logarithms occur), and
the NumPy / pandas primitives used by the notebooks (`argsort`, boolean
masks, `histogram`, column statistics) are given direct functional models.
-/

/-! ### Batch codes from cell-group names (`get_data`, cnn_life_predict)

In the source, each cell group name `aname` is mapped to a batch code by

  if 'Batch1' in aname: 1 elif 'Batch2' in aname: 2
  elif 'Batch3' in aname: 3 else: 0

Python's `in` on strings is substring containment, modelled here on
`List Char`. -/

/-- Boolean test that `p` is a prefix of `s` (character lists). -/
def prefEq : List Char → List Char → Bool
  | [], _ => true
  | _ :: _, [] => false
  | a :: as, b :: bs => a == b && prefEq as bs

/-- Boolean substring containment: Python's `p in s` on strings. -/
def containsSub (p : List Char) : List Char → Bool
  | [] => prefEq p []
  | c :: rest => prefEq p (c :: rest) || containsSub p rest

/-- Batch code of a cell-group name, following the `if/elif/else` chain of
`get_data`: `Batch1` wins over `Batch2`, which wins over `Batch3`;
anything else gets code 0. -/
def batchOf (aname : List Char) : Nat :=
  if containsSub "Batch1".data aname then 1
  else if containsSub "Batch2".data aname then 2
  else if containsSub "Batch3".data aname then 3
  else 0

/-! ### The train/validation/test split of `get_data`

The code is:

  iD['tst'] = batchV == 3
  ntst = np.sum(iD['tst'])
  nrst = ncell - ntst
  nval = np.int16(0.2*nrst)
  irnd = np.random.rand(ncell)
  irnd[iD['tst']] = 0
  top_nval = np.argsort(irnd)[-nval:]
  iD['val'] = np.zeros((ncell,), dtype='bool')
  iD['val'][top_nval] = True
  iD['trn'] = np.invert(iD['val'])*np.invert(iD['tst'])

The random vector `irnd` (one float in [0,1) per cell) is an explicit
parameter `rnd : List ℚ`.  `np.int16(0.2*nrst)` truncates the float
`0.2*nrst` toward zero, which for every realistic cell count equals
`nrst / 5` in natural division (0.2 rounds to a double slightly above 1/5,
so the product never falls below the true quotient).  `np.argsort` is
modelled as a stable sort of the indices by value; numpy's default
quicksort fixes no tie order, and ties only arise between equal draws.
Crucially, Python's `a[-nval:]` slice is the whole array when `nval = 0`,
which `lastSlice` reproduces. -/

/-- Test mask: `batchV == 3` elementwise. -/
def tstMask (batch : List Nat) : List Bool :=
  batch.map (fun b => b == 3)

/-- Number of test cells, `ntst = np.sum(iD['tst'])`. -/
def ntstOf (batch : List Nat) : Nat :=
  (tstMask batch).count true

/-- Validation-set size `nval = np.int16(0.2*nrst)` with `nrst = ncell - ntst`. -/
def nvalOf (ncell ntst : Nat) : Nat :=
  (ncell - ntst) / 5

/-- Random draws with the test positions zeroed: `irnd[iD['tst']] = 0`. -/
def zeroRnd (tst : List Bool) (rnd : List ℚ) : List ℚ :=
  List.zipWith (fun b r => if b then 0 else r) tst rnd

/-- Indices `0..n-1` sorted (stably) by ascending value: `np.argsort(v)`. -/
def argsortR (v : List ℚ) : List Nat :=
  List.insertionSort (fun i j => v.getD i 0 ≤ v.getD j 0) (List.range v.length)

/-- Python slice `l[-k:]`: the last `k` elements, except that `k = 0`
(`l[-0:]` = `l[0:]`) yields the whole list. -/
def lastSlice (l : List Nat) (k : Nat) : List Nat :=
  if k = 0 then l else l.drop (l.length - k)

/-- The indices selected for validation, `top_nval = np.argsort(irnd)[-nval:]`. -/
def topNval (batch : List Nat) (rnd : List ℚ) : List Nat :=
  lastSlice (argsortR (zeroRnd (tstMask batch) rnd))
    (nvalOf batch.length (ntstOf batch))

/-- Validation mask: all-False, then True at the `top_nval` positions. -/
def valMask (batch : List Nat) (rnd : List ℚ) : List Bool :=
  (List.range batch.length).map (fun i => decide (i ∈ topNval batch rnd))

/-- Training mask: `np.invert(iD['val'])*np.invert(iD['tst'])`. -/
def trnMask (batch : List Nat) (rnd : List ℚ) : List Bool :=
  List.zipWith (fun v t => !v && !t) (valMask batch rnd) (tstMask batch)

/-- Number of splits (train, validation, test) that cell `i` belongs to. -/
def splitCount (batch : List Nat) (rnd : List ℚ) (i : Nat) : Nat :=
  (if (trnMask batch rnd).getD i false then 1 else 0) +
  (if (valMask batch rnd).getD i false then 1 else 0) +
  (if (tstMask batch).getD i false then 1 else 0)

/-- The rational 1/2, as an explicit normalized fraction (a value
`np.random.rand` can produce). -/
def q12 : ℚ := ⟨1, 2, by decide, by decide⟩

/-- The rational 1/3. -/
def q13 : ℚ := ⟨1, 3, by decide, by decide⟩

/-- The rational 1/4. -/
def q14 : ℚ := ⟨1, 4, by decide, by decide⟩

/-- The rational 1/5. -/
def q15 : ℚ := ⟨1, 5, by decide, by decide⟩

/-- The rational 1/6. -/
def q16 : ℚ := ⟨1, 6, by decide, by decide⟩

/-- The rational 9/10. -/
def q910 : ℚ := ⟨9, 10, by decide, by decide⟩

/-! ### Histogram-based sample weights (`get_data`, cnn_life_predict)

The code is:

  bins = 4
  hist, bin_edges = np.histogram(y['trn'], bins=bins, density=True)
  invhist = np.mean(hist)/hist
  weights = np.ones(y['trn'].shape)
  for ii in range(bins):
      lwr = bin_edges[ii]
      upr = bin_edges[ii+1]
      if ii == 0:
          sel = (lwr <= y['trn'])*(y['trn'] <= upr)
      else:
          sel = (lwr < y['trn'])*(y['trn'] <= upr)
      weights[sel] = invhist[ii]

`np.histogram` places its 5 equally spaced edges between the data minimum
and maximum, counts with bins closed on the left and open on the right
(the final bin closed on both sides), and with `density=True` divides each
count by the total count times the bin width.  The assignment loop, by
contrast, selects with the first bin closed on both sides and every later
bin open on the left and closed on the right; later iterations overwrite
earlier ones. -/

/-- Minimum of a list of rationals (the data minimum used by `np.histogram`). -/
def listMin (l : List ℚ) : ℚ := l.foldr min (l.headD 0)

/-- Maximum of a list of rationals (the data maximum used by `np.histogram`). -/
def listMax (l : List ℚ) : ℚ := l.foldr max (l.headD 0)

/-- Histogram edge `bin_edges[i]`: 5 equally spaced values from the data
minimum to the data maximum. -/
def binEdge (y : List ℚ) (i : Nat) : ℚ :=
  listMin y + (i : ℚ) * (listMax y - listMin y) / 4

/-- Raw count of `np.histogram` in bin `i`: bins are closed-left/open-right,
except the last bin which is closed on both sides. -/
def npBinCount (y : List ℚ) (i : Nat) : Nat :=
  if i < 3 then
    y.countP (fun x => decide (binEdge y i ≤ x) && decide (x < binEdge y (i + 1)))
  else
    y.countP (fun x => decide (binEdge y 3 ≤ x) && decide (x ≤ binEdge y 4))

/-- Total `np.histogram` count over the four bins (`hist.sum()` before
density normalization). -/
def totalCount (y : List ℚ) : Nat :=
  npBinCount y 0 + npBinCount y 1 + npBinCount y 2 + npBinCount y 3

/-- Normalized density `hist[i]` of `np.histogram(..., density=True)`:
count divided by total count times bin width. -/
def binDensity (y : List ℚ) (i : Nat) : ℚ :=
  (npBinCount y i : ℚ) / ((totalCount y : ℚ) * ((listMax y - listMin y) / 4))

/-- The mean `np.mean(hist)` of the four bin densities. -/
def meanHist (y : List ℚ) : ℚ :=
  (binDensity y 0 + binDensity y 1 + binDensity y 2 + binDensity y 3) / 4

/-- Inverse relative density `invhist[i] = np.mean(hist)/hist[i]`. -/
def invHist (y : List ℚ) (i : Nat) : ℚ :=
  meanHist y / binDensity y i

/-- Selection mask `sel` of loop iteration `ii` applied to one label:
closed-closed for the first bin, open-closed for the later ones. -/
def selBin (y : List ℚ) (ii : Nat) (x : ℚ) : Bool :=
  if ii = 0 then decide (binEdge y 0 ≤ x) && decide (x ≤ binEdge y 1)
  else decide (binEdge y ii < x) && decide (x ≤ binEdge y (ii + 1))

/-- Sample weight assigned to one training label by the loop: start from 1
and overwrite with `invhist[ii]` at each iteration whose mask selects the
label. -/
def weightOf (y : List ℚ) (x : ℚ) : ℚ :=
  (List.range 4).foldl (fun w ii => if selBin y ii x then invHist y ii else w) 1

/-- Index of the bin containing a label under the loop's convention (the
first bin includes both its edges, every later bin is left-open and
right-closed). -/
def binIdx (y : List ℚ) (x : ℚ) : Nat :=
  if x ≤ binEdge y 1 then 0
  else if x ≤ binEdge y 2 then 1
  else if x ≤ binEdge y 3 then 2
  else 3

/-! ### Auto-MPG preprocessing (exercise-1_keras)

The notebook drops every row containing a missing value
(`data.dropna(inplace=True)`; missing values are the `?` entries parsed as
NaN) and then normalizes every input column with

  data[X_cols] = data[X_cols].apply(lambda x: (x - x.mean()) / x.std())

pandas' `.std()` is the sample standard deviation (denominator `n - 1`).
A table is modelled as a list of rows of optional values for `dropna`, and
as a list of numeric columns for the column-wise normalization; square
roots force the column model into `ℝ`. -/

/-- Row filter of `data.dropna()`: keep exactly the rows in which every
entry is present. -/
def dropna (rows : List (List (Option ℚ))) : List (List (Option ℚ)) :=
  rows.filter (fun r => r.all (fun v => v.isSome))

/-- Column mean, `x.mean()`. -/
noncomputable def colMean (c : List ℝ) : ℝ :=
  c.sum / (c.length : ℝ)

/-- Sample variance of a column (square of pandas' `x.std()`, denominator
`n - 1`). -/
noncomputable def colVar (c : List ℝ) : ℝ :=
  (c.map (fun x => (x - colMean c) ^ 2)).sum / ((c.length : ℝ) - 1)

/-- Sample standard deviation, `x.std()`. -/
noncomputable def colStd (c : List ℝ) : ℝ :=
  Real.sqrt (colVar c)

/-- The normalization lambda applied to one column:
`lambda x: (x - x.mean()) / x.std()`. -/
noncomputable def normalizeCol (c : List ℝ) : List ℝ :=
  c.map (fun x => (x - colMean c) / colStd c)

/-- The `.apply` of the normalization lambda over all input columns. -/
noncomputable def normalizeTable (cols : List (List ℝ)) : List (List ℝ) :=
  cols.map normalizeCol

/-- Total rendering of the normalization lambda with guarded division: the
division-by-zero branch is `none`. -/
noncomputable def normalizeColChecked (c : List ℝ) : Option (List ℝ) :=
  if colStd c = 0 then none else some (normalizeCol c)

/-! ### Dense-layer parameter counts (exercise-1_keras)

The Sequential models are stacks of fully connected (`Dense`) layers; a
`Dense` layer with `u` units on `nin` inputs holds `(nin + 1) * u`
parameters (one weight per input per unit plus one bias per unit).  The
notebook builds a 9-input network with hidden layers `[64, 64]` and one
linear output, and (in `build_model(3, 128)` and Part 1) a 9-input network
with hidden layers `[128, 128, 128]` and one output, asserting
`model.count_params() == 34433`. -/

/-- Parameter count of one `Dense` layer: weights plus biases,
`(inputs + 1) * units`. -/
def denseParams (nin units : Nat) : Nat :=
  (nin + 1) * units

/-- Parameter count of a Sequential stack of `Dense` layers
(`model.count_params()`), feeding each layer's width into the next. -/
def countParams (inputDim : Nat) : List Nat → Nat
  | [] => 0
  | u :: rest => denseParams inputDim u + countParams u rest

/-- Number of input features of the auto-MPG models: the 7 numeric columns
plus 3 one-hot `Origin` columns, minus the `MPG` target (`len(X_cols)`). -/
def numInputs : Nat := 9

/-- Layer widths of the tutorial model `Sequential([Dense(64), Dense(64),
Dense(1)])`. -/
def tutorialUnits : List Nat := [64, 64, 1]

/-- Layer widths of the Part-1 / `build_model()` model: three hidden layers
of 128 units and one output unit. -/
def overfitUnits : List Nat := [128, 128, 128, 1]

/-! ### Log transform of the targets (cnn_life_predict)

With `logy=True` the labels are `np.log10(cycfailV[...])` and the parity
plot and error metrics apply `10**` to predictions and labels. -/

/-- The label transform `np.log10`. -/
noncomputable def logTransform (x : ℝ) : ℝ :=
  Real.logb 10 x

/-- The inverse transform `10**y` used by the parity plot and metrics. -/
noncomputable def invTransform (y : ℝ) : ℝ :=
  (10 : ℝ) ^ y

/-! ### Remote-file fetching of the data loaders

`exercise-1_keras` fetches the auto-MPG file with `keras.utils.get_file`,
which downloads on the first call and afterwards reuses the locally cached
file.  `cnn_life_predict`'s `get_data` instead calls
`urllib.request.urlretrieve(remote_url, fname)` unconditionally at the top
of every call; `urlretrieve` always downloads (overwriting `fname`).  In
both, a failed fetch raises and aborts the run; neither retries.

The model: the local cache is the optional stored file plus a download
counter; the network's answer to one fetch attempt is an optional payload
(`none` = fetch failure), and a failure propagates as `Except.error`. -/

/-- Local state of one dataset file: the cached contents, if any, and how
many downloads have happened. -/
structure CacheState where
  cached : Option Nat
  downloads : Nat

/-- Model of `urllib.request.urlretrieve(url, fname)`: always fetch; on
success store the payload, on failure raise.  A single attempt is made. -/
def urlretrieve (response : Option Nat) (s : CacheState) :
    Except Unit (Nat × CacheState) :=
  match response with
  | some d => Except.ok (d, ⟨some d, s.downloads + 1⟩)
  | none => Except.error ()

/-- Model of `keras.utils.get_file(fname, origin)`: reuse the cached file
when present, otherwise fetch once. -/
def get_file (response : Option Nat) (s : CacheState) :
    Except Unit (Nat × CacheState) :=
  match s.cached with
  | some d => Except.ok (d, s)
  | none => urlretrieve response s

/-- The fetch performed by `get_data` of cnn_life_predict: an unconditional
`urlretrieve`. -/
def getDataFetch (response : Option Nat) (s : CacheState) :
    Except Unit (Nat × CacheState) :=
  urlretrieve response s

/-- Two successive uses of a data loader against the same remote file,
returning the final local state. -/
def fetchTwice (f : Option Nat → CacheState → Except Unit (Nat × CacheState))
    (response : Option Nat) (s : CacheState) : Except Unit CacheState :=
  match f response s with
  | Except.error e => Except.error e
  | Except.ok (_, s₁) =>
    match f response s₁ with
    | Except.error e => Except.error e
    | Except.ok (_, s₂) => Except.ok s₂

/-- Downloads recorded in the final state of a loader run (`none` when the
run aborted). -/
def downloadsAfter (r : Except Unit CacheState) : Option Nat :=
  match r with
  | Except.ok s => some s.downloads
  | Except.error _ => none

/-! ## Helper lemmas about the split model -/

theorem countP_range_getD (l : List Bool) :
    (List.range l.length).countP (fun j => l.getD j false) = l.count true := by
  induction l with
  | nil => simp
  | cons a t ih =>
    rw [List.length_cons, List.range_succ_eq_map, List.countP_cons,
      List.countP_map]
    have hcomp : ((fun j => (a :: t).getD j false) ∘ Nat.succ) =
        fun j => t.getD j false := by
      funext j
      simp [List.getD_cons_succ]
    rw [hcomp, ih, List.count_cons]
    cases a <;> simp

theorem tstMask_length (b : List Nat) : (tstMask b).length = b.length := by
  simp [tstMask]

theorem valMask_length (b : List Nat) (r : List ℚ) :
    (valMask b r).length = b.length := by
  simp [valMask]

theorem zeroRnd_length (b : List Nat) (r : List ℚ) (hlen : r.length = b.length) :
    (zeroRnd (tstMask b) r).length = b.length := by
  simp [zeroRnd, tstMask, hlen]

theorem argsortR_length (v : List ℚ) : (argsortR v).length = v.length := by
  simp [argsortR, List.length_insertionSort]

theorem argsortR_perm (v : List ℚ) :
    List.Perm (argsortR v) (List.range v.length) :=
  List.perm_insertionSort _ _

theorem argsortR_sorted (v : List ℚ) :
    List.Sorted (fun i j => v.getD i 0 ≤ v.getD j 0) (argsortR v) := by
  haveI : IsTotal ℕ (fun i j => v.getD i 0 ≤ v.getD j 0) :=
    ⟨fun a b => le_total _ _⟩
  haveI : IsTrans ℕ (fun i j => v.getD i 0 ≤ v.getD j 0) :=
    ⟨fun a b c h1 h2 => le_trans h1 h2⟩
  exact List.sorted_insertionSort _ _

theorem mem_argsortR_lt {v : List ℚ} {i : Nat} (h : i ∈ argsortR v) :
    i < v.length :=
  List.mem_range.mp ((argsortR_perm v).mem_iff.mp h)

theorem zeroRnd_getD (b : List Nat) (r : List ℚ) (hlen : r.length = b.length)
    {j : Nat} (hj : j < b.length) :
    (zeroRnd (tstMask b) r).getD j 0 =
      if (tstMask b).getD j false = true then 0 else r.getD j 0 := by
  have h1 : j < (tstMask b).length := by rw [tstMask_length]; exact hj
  have h2 : j < r.length := by rw [hlen]; exact hj
  have h3 : j < (zeroRnd (tstMask b) r).length := by
    rw [zeroRnd_length b r hlen]; exact hj
  rw [List.getD_eq_getElem _ _ h3, List.getD_eq_getElem _ _ h1,
    List.getD_eq_getElem _ _ h2]
  simp [zeroRnd, List.getElem_zipWith]

theorem valMask_getD (b : List Nat) (r : List ℚ) {i : Nat} (hi : i < b.length) :
    (valMask b r).getD i false = decide (i ∈ topNval b r) := by
  have h : i < (valMask b r).length := by rw [valMask_length]; exact hi
  rw [List.getD_eq_getElem _ _ h]
  simp [valMask]

theorem trnMask_getD (b : List Nat) (r : List ℚ) {i : Nat} (hi : i < b.length) :
    (trnMask b r).getD i false =
      (!(valMask b r).getD i false && !(tstMask b).getD i false) := by
  have hv : i < (valMask b r).length := by rw [valMask_length]; exact hi
  have ht : i < (tstMask b).length := by rw [tstMask_length]; exact hi
  have h : i < (trnMask b r).length := by
    simp [trnMask, valMask_length, tstMask_length]
    omega
  rw [List.getD_eq_getElem _ _ h, List.getD_eq_getElem _ _ hv,
    List.getD_eq_getElem _ _ ht]
  simp [trnMask, List.getElem_zipWith]

/-- Core disjointness lemma: a test cell is never selected into `top_nval`,
provided the validation allocation is nonempty and every non-test random
draw is strictly positive.  The test draws are zeroed, so in the ascending
stable argsort they cannot reach the last `nval` positions, which hold the
largest values. -/
theorem tst_not_mem_topNval (b : List Nat) (r : List ℚ)
    (hlen : r.length = b.length)
    (hnval : 1 ≤ nvalOf b.length (ntstOf b))
    (hpos : ∀ j, j < b.length → (tstMask b).getD j false = false →
      0 < r.getD j 0)
    {i : Nat} (htst : (tstMask b).getD i false = true) :
    i ∉ topNval b r := by
  intro hmem
  have hmem' : i ∈ lastSlice (argsortR (zeroRnd (tstMask b) r))
      (nvalOf b.length (ntstOf b)) := hmem
  rw [lastSlice, if_neg (by omega)] at hmem'
  set z := zeroRnd (tstMask b) r with hzdef
  set s := argsortR z with hsdef
  set k := nvalOf b.length (ntstOf b) with hkdef
  have hzlen : z.length = b.length := zeroRnd_length b r hlen
  have hslen : s.length = b.length := by rw [hsdef, argsortR_length, hzlen]
  obtain ⟨q, hq, hsq⟩ := List.mem_iff_getElem.mp hmem'
  rw [List.length_drop] at hq
  have hp : s.length - k + q < s.length := by omega
  have hpi : s[s.length - k + q] = i := by
    rw [← List.getElem_drop]
    exact hsq
  have hin : i < b.length := by
    have hmi : i ∈ s := by
      rw [← hpi]
      exact List.getElem_mem _
    have := mem_argsortR_lt hmi
    omega
  have hzi : z.getD i 0 = 0 := by
    rw [hzdef, zeroRnd_getD b r hlen hin, if_pos htst]
  have hnn : ∀ j, j < b.length → 0 ≤ z.getD j 0 := by
    intro j hj
    rw [hzdef, zeroRnd_getD b r hlen hj]
    by_cases hb : (tstMask b).getD j false = true
    · rw [if_pos hb]
    · rw [if_neg hb]
      exact le_of_lt (hpos j hj (by simpa using hb))
  have hzero_tst : ∀ j, j < b.length → z.getD j 0 = 0 →
      (tstMask b).getD j false = true := by
    intro j hj h0
    by_contra hft
    have hrv := hpos j hj (by simpa using hft)
    rw [hzdef, zeroRnd_getD b r hlen hj, if_neg hft] at h0
    exact absurd h0 (ne_of_gt hrv)
  have hsorted : List.Sorted (fun i j => z.getD i 0 ≤ z.getD j 0) s :=
    argsortR_sorted z
  have halltst : ∀ j ∈ s.take (s.length - k + q + 1),
      (fun j => (tstMask b).getD j false) j = true := by
    intro j hj
    obtain ⟨q', hq', hjq⟩ := List.mem_take_iff_getElem.mp hj
    have hq'len : q' < s.length := lt_of_lt_of_le hq' (min_le_right _ _)
    have hq'le : q' < s.length - k + q + 1 := lt_of_lt_of_le hq' (min_le_left _ _)
    have hjn : j < b.length := by
      have hmj : j ∈ s := hjq ▸ List.getElem_mem _
      have := mem_argsortR_lt hmj
      omega
    have hle : z.getD j 0 ≤ 0 := by
      rcases Nat.lt_succ_iff_lt_or_eq.mp hq'le with hlt | heq
      · have hrel := List.pairwise_iff_getElem.mp hsorted q'
          (s.length - k + q) hq'len hp hlt
        have h0 : z.getD (s[s.length - k + q]) 0 = 0 := by
          rw [hpi]; exact hzi
        have hle' : z.getD (s[q']) 0 ≤ 0 := le_trans hrel (le_of_eq h0)
        rw [← hjq]
        exact hle'
      · subst heq
        rw [← hjq]
        have h0 : z.getD (s[s.length - k + q]) 0 = 0 := by
          rw [hpi]; exact hzi
        exact le_of_eq h0
    exact hzero_tst j hjn (le_antisymm hle (hnn j hjn))
  have hcount1 : (s.take (s.length - k + q + 1)).countP
      (fun j => (tstMask b).getD j false) = s.length - k + q + 1 := by
    rw [List.countP_eq_length.mpr halltst, List.length_take]
    omega
  have hcount2 : (s.take (s.length - k + q + 1)).countP
      (fun j => (tstMask b).getD j false) ≤
      s.countP (fun j => (tstMask b).getD j false) :=
    (List.take_sublist _ _).countP_le _
  have hcount3 : s.countP (fun j => (tstMask b).getD j false) = ntstOf b := by
    rw [List.Perm.countP_eq _ (argsortR_perm z), hzlen]
    have := countP_range_getD (tstMask b)
    rw [tstMask_length] at this
    rw [this]
    rfl
  have hntst_le : ntstOf b ≤ b.length := by
    have h1 : (tstMask b).count true ≤ (tstMask b).length :=
      List.count_le_length _ _
    rw [tstMask_length] at h1
    exact h1
  have hkle : k ≤ b.length - ntstOf b := Nat.div_le_self _ _
  omega

theorem tstMask_getD (b : List Nat) {i : Nat} (hi : i < b.length) :
    (tstMask b).getD i false = (b.getD i 0 == 3) := by
  have h1 : i < (tstMask b).length := by rw [tstMask_length]; exact hi
  rw [List.getD_eq_getElem _ _ h1, List.getD_eq_getElem _ _ hi]
  simp [tstMask]

theorem map_batchOf_getD (names : List (List Char)) {i : Nat}
    (hi : i < names.length) :
    (names.map batchOf).getD i 0 = batchOf (names.getD i []) := by
  have h1 : i < (names.map batchOf).length := by
    rw [List.length_map]; exact hi
  rw [List.getD_eq_getElem _ _ h1, List.getD_eq_getElem _ _ hi,
    List.getElem_map]

/-- C1 (counterexample): with two cells, one of them in Batch3, the rest
size is `nrst = 1`, so `nval = int16(0.2*1) = 0` and the slice
`np.argsort(irnd)[-0:]` is the whole index array.  Every cell, the Batch3
cell included, is then marked validation, so the Batch3 cell lies in both
the validation and the test split: the three masks are not a partition for
this dataset and draw. -/
theorem c1_split_partition_cex :
    ¬ (∀ i, i < 2 → splitCount [3, 1] [q12, q13] i = 1) := by
  decide

/-- C1 (amended): the train, validation and test masks of `get_data` are
pairwise disjoint and exhaustive — every cell lies in exactly one split —
provided the validation allocation `nval = int16(0.2*nrst)` is at least 1
and every non-test random draw is strictly positive. -/
theorem c1_split_partition (b : List Nat) (r : List ℚ)
    (hlen : r.length = b.length)
    (hnval : 1 ≤ nvalOf b.length (ntstOf b))
    (hpos : ∀ j, j < b.length → (tstMask b).getD j false = false →
      0 < r.getD j 0) :
    ∀ i, i < b.length → splitCount b r i = 1 := by
  intro i hi
  rw [splitCount, trnMask_getD b r hi, valMask_getD b r hi]
  by_cases ht : (tstMask b).getD i false = true
  · have hnv := tst_not_mem_topNval b r hlen hnval hpos ht
    rw [ht]
    simp [hnv]
  · have ht' : (tstMask b).getD i false = false := by simpa using ht
    rw [ht']
    by_cases hv : i ∈ topNval b r
    · simp [hv]
    · simp [hv]

/-- C1 (witness): a six-cell dataset with one Batch3 cell and strictly
positive draws satisfies the amended hypotheses; the Batch3 cell 0 and the
ordinary cell 5 each lie in exactly one split. -/
theorem c1_split_partition_witness :
    splitCount [3, 1, 1, 1, 1, 1] [q12, q12, q13, q14, q15, q16] 0 = 1 ∧
    splitCount [3, 1, 1, 1, 1, 1] [q12, q12, q13, q14, q15, q16] 5 = 1 :=
  ⟨c1_split_partition [3, 1, 1, 1, 1, 1] [q12, q12, q13, q14, q15, q16]
      (by decide) (by decide) (by decide) 0 (by decide),
    c1_split_partition [3, 1, 1, 1, 1, 1] [q12, q12, q13, q14, q15, q16]
      (by decide) (by decide) (by decide) 5 (by decide)⟩

/-- C5 (counterexample): a cell whose group name contains both `Batch1` and
`Batch3` gets batch code 1 from the `if/elif` chain, so although its name
contains `Batch3` it is not placed in the test set. -/
theorem c5_test_by_batch_cex :
    containsSub "Batch3".data "Batch1Batch3".data = true ∧
    (tstMask (["Batch1Batch3".data].map batchOf)).getD 0 false = false := by
  decide

/-- C5 (amended): membership in the test split is determined solely and
deterministically by the batch code — code 3, held exactly by the names
that contain `Batch3` and contain neither `Batch1` nor `Batch2` — and,
whenever the validation allocation is nonempty and the non-test draws are
positive, no code-3 cell appears in the train or validation split.  The
test mask is a function of the names alone; the random draws never enter
it. -/
theorem c5_test_by_batch (names : List (List Char)) (r : List ℚ)
    (hlen : r.length = names.length)
    (hnval : 1 ≤ nvalOf names.length (ntstOf (names.map batchOf)))
    (hpos : ∀ j, j < names.length →
      (tstMask (names.map batchOf)).getD j false = false → 0 < r.getD j 0) :
    (∀ nm : List Char, batchOf nm = 3 ↔
      (containsSub "Batch1".data nm = false ∧
       containsSub "Batch2".data nm = false ∧
       containsSub "Batch3".data nm = true)) ∧
    (∀ i, i < names.length →
      (tstMask (names.map batchOf)).getD i false =
        (batchOf (names.getD i []) == 3)) ∧
    (∀ i, i < names.length →
      (tstMask (names.map batchOf)).getD i false = true →
      (valMask (names.map batchOf) r).getD i false = false ∧
      (trnMask (names.map batchOf) r).getD i false = false) := by
  have hblen : (names.map batchOf).length = names.length := List.length_map _ _
  refine ⟨?_, ?_, ?_⟩
  · intro nm
    cases hc1 : containsSub "Batch1".data nm <;>
      cases hc2 : containsSub "Batch2".data nm <;>
        cases hc3 : containsSub "Batch3".data nm <;>
          simp [batchOf, hc1, hc2, hc3]
  · intro i hi
    rw [tstMask_getD _ (by rw [hblen]; exact hi),
      map_batchOf_getD names hi]
  · intro i hi htst
    have hi' : i < (names.map batchOf).length := by rw [hblen]; exact hi
    have hlen' : r.length = (names.map batchOf).length := by
      rw [hblen]; exact hlen
    have hnval' : 1 ≤ nvalOf (names.map batchOf).length
        (ntstOf (names.map batchOf)) := by rw [hblen]; exact hnval
    have hpos' : ∀ j, j < (names.map batchOf).length →
        (tstMask (names.map batchOf)).getD j false = false →
        0 < r.getD j 0 := by
      intro j hj
      exact hpos j (by rw [← hblen]; exact hj)
    have hnv := tst_not_mem_topNval (names.map batchOf) r hlen' hnval' hpos' htst
    constructor
    · rw [valMask_getD _ r hi']
      simp [hnv]
    · rw [trnMask_getD _ r hi', htst]
      simp

/-- C5 (witness): on a dataset with one pure Batch3 cell (index 0) and
five Batch1 cells with positive draws, the amended statement holds at the
Batch3 cell: its code is 3, its test-mask entry is the code test alone,
and it lies in neither train nor validation. -/
theorem c5_test_by_batch_witness :
    (batchOf "Batch3a".data = 3 ↔
      (containsSub "Batch1".data "Batch3a".data = false ∧
       containsSub "Batch2".data "Batch3a".data = false ∧
       containsSub "Batch3".data "Batch3a".data = true)) ∧
    ((tstMask ((["Batch3a".data, "Batch1b".data, "Batch1c".data,
      "Batch1d".data, "Batch1e".data, "Batch1f".data]).map batchOf)).getD
        0 false =
      (batchOf ((["Batch3a".data, "Batch1b".data, "Batch1c".data,
        "Batch1d".data, "Batch1e".data, "Batch1f".data]).getD 0 []) == 3)) ∧
    ((valMask ((["Batch3a".data, "Batch1b".data, "Batch1c".data,
      "Batch1d".data, "Batch1e".data, "Batch1f".data]).map batchOf)
      [q12, q12, q13, q14, q15, q16]).getD 0 false = false ∧
     (trnMask ((["Batch3a".data, "Batch1b".data, "Batch1c".data,
      "Batch1d".data, "Batch1e".data, "Batch1f".data]).map batchOf)
      [q12, q12, q13, q14, q15, q16]).getD 0 false = false) :=
  have h := c5_test_by_batch
    ["Batch3a".data, "Batch1b".data, "Batch1c".data,
      "Batch1d".data, "Batch1e".data, "Batch1f".data]
    [q12, q12, q13, q14, q15, q16] (by decide) (by decide) (by decide)
  ⟨h.1 "Batch3a".data, h.2.1 0 (by decide), h.2.2 0 (by decide) (by decide)⟩

/-- C10: a cell whose group name contains none of `Batch1`, `Batch2`,
`Batch3` receives batch code 0, is never placed in the test set, and lands
in the train or validation split. -/
theorem c10_unbatched_cell (names : List (List Char)) (r : List ℚ)
    (i : Nat) (hi : i < names.length)
    (h1 : containsSub "Batch1".data (names.getD i []) = false)
    (h2 : containsSub "Batch2".data (names.getD i []) = false)
    (h3 : containsSub "Batch3".data (names.getD i []) = false) :
    batchOf (names.getD i []) = 0 ∧
    (tstMask (names.map batchOf)).getD i false = false ∧
    ((trnMask (names.map batchOf) r).getD i false ||
      (valMask (names.map batchOf) r).getD i false) = true := by
  have hblen : (names.map batchOf).length = names.length := List.length_map _ _
  have hi' : i < (names.map batchOf).length := by rw [hblen]; exact hi
  have hb0 : batchOf (names.getD i []) = 0 := by
    unfold batchOf
    rw [h1, h2, h3]
    simp
  have htst : (tstMask (names.map batchOf)).getD i false = false := by
    rw [tstMask_getD _ hi', map_batchOf_getD names hi, hb0]
    rfl
  refine ⟨hb0, htst, ?_⟩
  rw [trnMask_getD _ r hi', htst]
  cases hvb : (valMask (names.map batchOf) r).getD i false <;> simp [hvb]

/-- C10 (witness): a single cell named `cellX` with draw 1/2 has batch
code 0, is not in the test set, and lands in train or validation. -/
theorem c10_unbatched_cell_witness :
    batchOf (["cellX".data].getD 0 []) = 0 ∧
    (tstMask (["cellX".data].map batchOf)).getD 0 false = false ∧
    ((trnMask (["cellX".data].map batchOf) [q12]).getD 0 false ||
      (valMask (["cellX".data].map batchOf) [q12]).getD 0 false) = true :=
  c10_unbatched_cell ["cellX".data] [q12] 0 (by decide)
    (by decide) (by decide) (by decide)

/-! ## Helper lemmas about the histogram weights -/

theorem foldr_min_le {l : List ℚ} {a x : ℚ} (hx : x ∈ l) :
    l.foldr min a ≤ x := by
  induction l with
  | nil => cases hx
  | cons h t ih =>
    rcases List.mem_cons.mp hx with rfl | hxt
    · exact min_le_left _ _
    · exact le_trans (min_le_right _ _) (ih hxt)

theorem le_foldr_max {l : List ℚ} {a x : ℚ} (hx : x ∈ l) :
    x ≤ l.foldr max a := by
  induction l with
  | nil => cases hx
  | cons h t ih =>
    rcases List.mem_cons.mp hx with rfl | hxt
    · exact le_max_left _ _
    · exact le_trans (ih hxt) (le_max_right _ _)

theorem listMin_le {y : List ℚ} {x : ℚ} (hx : x ∈ y) : listMin y ≤ x :=
  foldr_min_le hx

theorem le_listMax {y : List ℚ} {x : ℚ} (hx : x ∈ y) : x ≤ listMax y :=
  le_foldr_max hx

theorem binEdge_lt_succ {y : List ℚ} (h : listMin y < listMax y) (i : Nat) :
    binEdge y i < binEdge y (i + 1) := by
  have key : binEdge y (i + 1) - binEdge y i = (listMax y - listMin y) / 4 := by
    unfold binEdge
    push_cast
    ring
  linarith

theorem binEdge_zero (y : List ℚ) : binEdge y 0 = listMin y := by
  unfold binEdge
  push_cast
  ring

theorem binEdge_four (y : List ℚ) : binEdge y 4 = listMax y := by
  unfold binEdge
  push_cast
  ring

/-- C6: the sample weight the `get_data` loop assigns to a training label
equals `np.mean(hist)/hist[i]` — the inverse of the normalized histogram
density of the bin containing the label, where the first bin includes both
its edges and every later bin is left-open and right-closed. -/
theorem c6_sample_weights (y : List ℚ) (x : ℚ) (hx : x ∈ y)
    (hne : listMin y < listMax y) :
    weightOf y x = meanHist y / binDensity y (binIdx y x) := by
  have hlo : listMin y ≤ x := listMin_le hx
  have hhi : x ≤ listMax y := le_listMax hx
  have h01 : binEdge y 0 < binEdge y 1 := binEdge_lt_succ hne 0
  have h12 : binEdge y 1 < binEdge y 2 := binEdge_lt_succ hne 1
  have h23 : binEdge y 2 < binEdge y 3 := binEdge_lt_succ hne 2
  have h34 : binEdge y 3 < binEdge y 4 := binEdge_lt_succ hne 3
  have he0 : binEdge y 0 = listMin y := binEdge_zero y
  have he4 : binEdge y 4 = listMax y := binEdge_four y
  have hw : weightOf y x =
      (if selBin y 3 x then invHist y 3 else
        if selBin y 2 x then invHist y 2 else
          if selBin y 1 x then invHist y 1 else
            if selBin y 0 x then invHist y 0 else 1) := rfl
  rw [hw]
  simp only [binIdx]
  by_cases hx1 : x ≤ binEdge y 1
  · rw [if_pos hx1]
    have hs3 : selBin y 3 x = false := by
      show (decide (binEdge y 3 < x) && decide (x ≤ binEdge y 4)) = false
      rw [decide_eq_false (by linarith : ¬ binEdge y 3 < x), Bool.false_and]
    have hs2 : selBin y 2 x = false := by
      show (decide (binEdge y 2 < x) && decide (x ≤ binEdge y 3)) = false
      rw [decide_eq_false (by linarith : ¬ binEdge y 2 < x), Bool.false_and]
    have hs1 : selBin y 1 x = false := by
      show (decide (binEdge y 1 < x) && decide (x ≤ binEdge y 2)) = false
      rw [decide_eq_false (by linarith : ¬ binEdge y 1 < x), Bool.false_and]
    have hs0 : selBin y 0 x = true := by
      show (decide (binEdge y 0 ≤ x) && decide (x ≤ binEdge y 1)) = true
      rw [decide_eq_true (by linarith : binEdge y 0 ≤ x), decide_eq_true hx1]
      rfl
    rw [hs3, hs2, hs1, hs0]
    simp [invHist]
  · rw [if_neg hx1]
    by_cases hx2 : x ≤ binEdge y 2
    · rw [if_pos hx2]
      have hs3 : selBin y 3 x = false := by
        show (decide (binEdge y 3 < x) && decide (x ≤ binEdge y 4)) = false
        rw [decide_eq_false (by linarith : ¬ binEdge y 3 < x), Bool.false_and]
      have hs2 : selBin y 2 x = false := by
        show (decide (binEdge y 2 < x) && decide (x ≤ binEdge y 3)) = false
        rw [decide_eq_false (by linarith : ¬ binEdge y 2 < x), Bool.false_and]
      have hs1 : selBin y 1 x = true := by
        show (decide (binEdge y 1 < x) && decide (x ≤ binEdge y 2)) = true
        rw [decide_eq_true (by linarith : binEdge y 1 < x), decide_eq_true hx2]
        rfl
      rw [hs3, hs2, hs1]
      simp [invHist]
    · rw [if_neg hx2]
      by_cases hx3 : x ≤ binEdge y 3
      · rw [if_pos hx3]
        have hs3 : selBin y 3 x = false := by
          show (decide (binEdge y 3 < x) && decide (x ≤ binEdge y 4)) = false
          rw [decide_eq_false (by linarith : ¬ binEdge y 3 < x), Bool.false_and]
        have hs2 : selBin y 2 x = true := by
          show (decide (binEdge y 2 < x) && decide (x ≤ binEdge y 3)) = true
          rw [decide_eq_true (by linarith : binEdge y 2 < x), decide_eq_true hx3]
          rfl
        rw [hs3, hs2]
        simp [invHist]
      · rw [if_neg hx3]
        have hs3 : selBin y 3 x = true := by
          show (decide (binEdge y 3 < x) && decide (x ≤ binEdge y 4)) = true
          rw [decide_eq_true (by linarith : binEdge y 3 < x),
            decide_eq_true (by linarith : x ≤ binEdge y 4)]
          rfl
        rw [hs3]
        simp [invHist]

/-- C6 (witness): for the training labels `[0, 1, 2, 3, 4]` and the label
1, the loop weight equals the inverse normalized density of the bin
containing 1. -/
theorem c6_sample_weights_witness :
    weightOf [0, 1, 2, 3, 4] 1 =
      meanHist [0, 1, 2, 3, 4] /
        binDensity [0, 1, 2, 3, 4] (binIdx [0, 1, 2, 3, 4] 1) :=
  c6_sample_weights [0, 1, 2, 3, 4] 1 (by decide) (by decide)

/-! ## Helper lemmas about column statistics -/

theorem lsum_map_mul_right (l : List ℝ) (f : ℝ → ℝ) (cst : ℝ) :
    (l.map (fun x => f x * cst)).sum = (l.map f).sum * cst := by
  induction l with
  | nil => simp
  | cons a t ih =>
    simp only [List.map_cons, List.sum_cons, ih]
    ring

theorem lsum_map_sub_const (l : List ℝ) (m : ℝ) :
    (l.map (fun x => x - m)).sum = l.sum - (l.length : ℝ) * m := by
  induction l with
  | nil => simp
  | cons a t ih =>
    simp only [List.map_cons, List.sum_cons, List.length_cons, ih]
    push_cast
    ring

theorem lsum_const_of_all_eq (l : List ℝ) (v : ℝ) (h : ∀ x ∈ l, x = v) :
    l.sum = (l.length : ℝ) * v := by
  induction l with
  | nil => simp
  | cons a t ih =>
    rw [List.sum_cons, ih (fun x hx => h x (List.mem_cons_of_mem _ hx)),
      h a (List.mem_cons_self _ _), List.length_cons]
    push_cast
    ring

theorem lsum_pos_mem (l : List ℝ) (f : ℝ → ℝ) (hnn : ∀ z ∈ l, 0 ≤ f z)
    {x : ℝ} (hx : x ∈ l) (hfx : 0 < f x) : 0 < (l.map f).sum := by
  induction l with
  | nil => cases hx
  | cons a t ih =>
    rw [List.map_cons, List.sum_cons]
    rcases List.mem_cons.mp hx with rfl | hxt
    · have hrest : 0 ≤ (t.map f).sum := by
        apply List.sum_nonneg
        intro z hz
        obtain ⟨w, hw, rfl⟩ := List.mem_map.mp hz
        exact hnn w (List.mem_cons_of_mem _ hw)
      linarith
    · have hha : 0 ≤ f a := hnn a (List.mem_cons_self _ _)
      have hpos := ih (fun z hz => hnn z (List.mem_cons_of_mem _ hz)) hxt
      linarith

theorem colVar_nonneg (c : List ℝ) : 0 ≤ colVar c := by
  rcases Nat.lt_or_ge c.length 1 with h | h
  · have hc : c = [] := List.length_eq_zero.mp (by omega)
    subst hc
    simp [colVar]
  · unfold colVar
    apply div_nonneg
    · apply List.sum_nonneg
      intro z hz
      obtain ⟨w, hw, rfl⟩ := List.mem_map.mp hz
      exact sq_nonneg _
    · have h1 : (1 : ℝ) ≤ (c.length : ℝ) := by exact_mod_cast h
      linarith

theorem colMean_normalizeCol (c : List ℝ) : colMean (normalizeCol c) = 0 := by
  by_cases hc : c = []
  · subst hc
    simp [normalizeCol, colMean]
  · have hn : ((c.length : ℝ)) ≠ 0 :=
      Nat.cast_ne_zero.mpr (fun h => hc (List.length_eq_zero.mp h))
    have hfun : (fun x => (x - colMean c) / colStd c)
        = fun x => (x - colMean c) * (colStd c)⁻¹ := by
      funext z
      rw [div_eq_mul_inv]
    have hsum : (normalizeCol c).sum = 0 := by
      unfold normalizeCol
      rw [hfun]
      have h1 := lsum_map_mul_right c (fun x => x - colMean c) (colStd c)⁻¹
      rw [h1, lsum_map_sub_const]
      have h2 : c.sum - (c.length : ℝ) * colMean c = 0 := by
        unfold colMean
        field_simp
      rw [h2, zero_mul]
    unfold colMean
    rw [hsum, zero_div]

theorem colVar_normalizeCol (c : List ℝ) (h2 : 2 ≤ c.length)
    (hvar : colVar c ≠ 0) : colVar (normalizeCol c) = 1 := by
  have hv0 : 0 ≤ colVar c := colVar_nonneg c
  have hvpos : 0 < colVar c := lt_of_le_of_ne hv0 (Ne.symm hvar)
  have hs2 : colStd c ^ 2 = colVar c := Real.sq_sqrt hv0
  have hn1 : ((c.length : ℝ) - 1) ≠ 0 := by
    have h1 : (2 : ℝ) ≤ (c.length : ℝ) := by exact_mod_cast h2
    linarith
  have hmean0 : colMean (normalizeCol c) = 0 := colMean_normalizeCol c
  have hS : (c.map (fun x => (x - colMean c) ^ 2)).sum
      = colVar c * ((c.length : ℝ) - 1) := by
    unfold colVar
    rw [div_mul_cancel₀ _ hn1]
  unfold colVar
  rw [hmean0]
  simp only [sub_zero, normalizeCol, List.map_map, List.length_map]
  have hfun : ((fun x => x ^ 2) ∘ (fun x => (x - colMean c) / colStd c))
      = fun x => (x - colMean c) ^ 2 * (colStd c ^ 2)⁻¹ := by
    funext z
    simp only [Function.comp_apply, div_eq_mul_inv, mul_pow, inv_pow]
  rw [hfun]
  have h1 := lsum_map_mul_right c (fun x => (x - colMean c) ^ 2) (colStd c ^ 2)⁻¹
  rw [h1, hS, hs2]
  field_simp

theorem colStd_normalizeCol (c : List ℝ) (h2 : 2 ≤ c.length)
    (hvar : colVar c ≠ 0) : colStd (normalizeCol c) = 1 := by
  show Real.sqrt (colVar (normalizeCol c)) = 1
  rw [colVar_normalizeCol c h2 hvar, Real.sqrt_one]

theorem colVar_small (c : List ℝ) (h : c.length ≤ 1) : colVar c = 0 := by
  rcases Nat.le_one_iff_eq_zero_or_eq_one.mp h with h0 | h1
  · have hc : c = [] := List.length_eq_zero.mp h0
    subst hc
    simp [colVar]
  · obtain ⟨a, rfl⟩ := List.length_eq_one.mp h1
    norm_num [colVar]

theorem colVar_const (c : List ℝ) (hconst : ∀ a ∈ c, ∀ b ∈ c, a = b) :
    colVar c = 0 := by
  cases c with
  | nil => simp [colVar]
  | cons a t =>
    have hv : ∀ x ∈ a :: t, x = a :=
      fun x hx => hconst x hx a (List.mem_cons_self _ _)
    have hn : (((a :: t).length : ℝ)) ≠ 0 := by
      rw [List.length_cons]
      push_cast
      positivity
    have hmean : colMean (a :: t) = a := by
      unfold colMean
      rw [lsum_const_of_all_eq _ a hv, mul_comm, mul_div_assoc, div_self hn,
        mul_one]
    unfold colVar
    rw [div_eq_zero_iff]
    left
    apply List.sum_eq_zero
    intro x hx
    obtain ⟨z, hz, rfl⟩ := List.mem_map.mp hx
    rw [hv z hz, hmean]
    ring

theorem colVar_pos_of_distinct (c : List ℝ) (h2 : 2 ≤ c.length)
    {a b : ℝ} (ha : a ∈ c) (hb : b ∈ c) (hab : a ≠ b) : 0 < colVar c := by
  obtain ⟨x, hxc, hxm⟩ : ∃ x ∈ c, x ≠ colMean c := by
    by_contra h
    push_neg at h
    exact hab ((h a ha).trans (h b hb).symm)
  unfold colVar
  apply div_pos
  · exact lsum_pos_mem c (fun z => (z - colMean c) ^ 2)
      (fun z _ => sq_nonneg _) hxc
      (lt_of_le_of_ne (sq_nonneg _)
        (Ne.symm (pow_ne_zero 2 (sub_ne_zero.mpr hxm))))
  · have h1 : (2 : ℝ) ≤ (c.length : ℝ) := by exact_mod_cast h2
    linarith

/-- C2: after the Keras exercise's preprocessing, no row with a missing
value remains, and every normalized feature column has mean exactly 0 and
sample standard deviation exactly 1 — in exact arithmetic, for every
column with at least two rows and nonzero sample variance (the actual
auto-MPG columns; a shorter or constant column would make `x.std()`
zero and the lambda ill-defined, see the guarded analysis). -/
theorem c2_preprocessing (rows : List (List (Option ℚ)))
    (cols : List (List ℝ))
    (hc : ∀ c ∈ cols, 2 ≤ c.length ∧ colVar c ≠ 0) :
    (∀ r ∈ dropna rows, ∀ v ∈ r, v.isSome = true) ∧
    (∀ c' ∈ normalizeTable cols, colMean c' = 0 ∧ colStd c' = 1) := by
  constructor
  · intro r hr v hv
    have hall := List.of_mem_filter hr
    exact List.all_eq_true.mp hall v hv
  · intro c' hc'
    obtain ⟨c, hcmem, rfl⟩ := List.mem_map.mp hc'
    obtain ⟨h2, hvar⟩ := hc c hcmem
    exact ⟨colMean_normalizeCol c, colStd_normalizeCol c h2 hvar⟩

/-- C2 (witness): on a two-row table whose second row has a missing entry
and the feature column `[0, 1]`, the row surviving `dropna` has all
entries present, and the normalized column has mean 0 and standard
deviation 1. -/
theorem c2_preprocessing_witness :
    ((some (1 : ℚ)).isSome = true) ∧
    (colMean (normalizeCol [(0 : ℝ), 1]) = 0 ∧
      colStd (normalizeCol [(0 : ℝ), 1]) = 1) :=
  have h := c2_preprocessing [[some 1], [none]] [[0, 1]]
    (by
      intro c hcm
      rw [List.mem_singleton] at hcm
      subst hcm
      refine ⟨by norm_num, ?_⟩
      norm_num [colVar, colMean])
  ⟨h.1 [some 1] (by decide) (some 1) (by decide),
    h.2 (normalizeCol [0, 1]) (List.mem_singleton.mpr rfl)⟩

/-- C9: the total, guarded rendering of the normalization lambda succeeds
exactly when the column has at least two rows and two distinct values —
precisely the columns with nonzero sample standard deviation — and a
constant column (any length) falls into the division-by-zero branch. -/
theorem c9_guarded_normalization :
    (∀ c : List ℝ, (normalizeColChecked c).isSome = true ↔
      (2 ≤ c.length ∧ ∃ a ∈ c, ∃ b ∈ c, a ≠ b)) ∧
    (∀ (v : ℝ) (n : Nat), normalizeColChecked (List.replicate n v) = none) := by
  have hstd_zero : ∀ c : List ℝ, colStd c = 0 ↔ colVar c = 0 := by
    intro c
    unfold colStd
    exact Real.sqrt_eq_zero (colVar_nonneg c)
  constructor
  · intro c
    constructor
    · intro hsome
      have hstd : colStd c ≠ 0 := by
        intro h0
        unfold normalizeColChecked at hsome
        rw [if_pos h0] at hsome
        simp at hsome
      have hvar : colVar c ≠ 0 := fun h => hstd ((hstd_zero c).mpr h)
      constructor
      · by_contra hlen
        push_neg at hlen
        exact hvar (colVar_small c (by omega))
      · by_contra hnd
        push_neg at hnd
        exact hvar (colVar_const c hnd)
    · rintro ⟨h2, a, ha, b, hb, hab⟩
      have hvpos := colVar_pos_of_distinct c h2 ha hb hab
      have hstd : colStd c ≠ 0 := by
        intro h0
        exact absurd ((hstd_zero c).mp h0) (ne_of_gt hvpos)
      unfold normalizeColChecked
      rw [if_neg hstd]
      rfl
  · intro v n
    have hvar : colVar (List.replicate n v) = 0 :=
      colVar_const _ (fun a ha b hb => by
        rw [List.eq_of_mem_replicate ha, List.eq_of_mem_replicate hb])
    have hstd : colStd (List.replicate n v) = 0 := by
      unfold colStd
      rw [hvar, Real.sqrt_zero]
    unfold normalizeColChecked
    rw [if_pos hstd]

/-- C4: the fully connected models' parameter counts follow the closed form
`(inputs + 1) * units` per Dense layer: the 9-input 64/64/1 network has
4865 parameters and the 9-input 128/128/128/1 network has 34433, matching
the notebook's `assert model.count_params() == 34433`. -/
theorem c4_param_counts :
    countParams numInputs tutorialUnits =
        (9 + 1) * 64 + (64 + 1) * 64 + (64 + 1) ∧
    countParams numInputs tutorialUnits = 4865 ∧
    countParams numInputs overfitUnits =
        (9 + 1) * 128 + (128 + 1) * 128 + (128 + 1) * 128 + (128 + 1) ∧
    countParams numInputs overfitUnits = 34433 :=
  ⟨by decide, by decide, by decide, by decide⟩

/-- C8: the `np.log10` label transform and the `10**` inverse used by the
parity plot and the error metrics are mutual inverses in exact arithmetic:
`10 ** log10 x = x` for every positive cycle life `x`, and
`log10 (10 ** y) = y` for every `y`. -/
theorem c8_log_inverse (x y : ℝ) (hx : 0 < x) :
    invTransform (logTransform x) = x ∧ logTransform (invTransform y) = y := by
  constructor
  · exact Real.rpow_logb (by norm_num) (by norm_num) hx
  · exact Real.logb_rpow (by norm_num) (by norm_num)

/-- C8 (witness): at the cycle life 1 and the log-value 0, both round trips
are the identity. -/
theorem c8_log_inverse_witness :
    invTransform (logTransform 1) = 1 ∧ logTransform (invTransform 0) = 0 :=
  c8_log_inverse 1 0 (by norm_num)

/-- C7 (counterexample): the cnn notebook's loader calls `urlretrieve`
unconditionally, so two uses against the same remote file perform two
downloads — the second use does not reuse the first download's file, which
the claim (one fetch on first use, cached thereafter) would require. -/
theorem c7_loader_cache_cex :
    downloadsAfter (fetchTwice getDataFetch (some 7) ⟨none, 0⟩) = some 2 ∧
    ¬ downloadsAfter (fetchTwice getDataFetch (some 7) ⟨none, 0⟩) = some 1 := by
  decide

/-- C7 (amended): the Keras exercise's loader (`keras.utils.get_file`)
serves a cached file without fetching and downloads exactly once across
two uses from an empty cache; the cnn notebook's loader downloads
unconditionally on every call; in both, a failed fetch propagates as an
error that aborts the run, after a single attempt and with no retry. -/
theorem c7_loader_cache (d k : Nat) (s : CacheState) (resp : Option Nat)
    (hcache : s.cached = some d) :
    (get_file resp s = Except.ok (d, s)) ∧
    (downloadsAfter (fetchTwice get_file (some d) ⟨none, k⟩) = some (k + 1)) ∧
    (getDataFetch (some d) s = Except.ok (d, ⟨some d, s.downloads + 1⟩)) ∧
    (getDataFetch none s = Except.error ()) ∧
    (get_file none ⟨none, k⟩ = Except.error ()) := by
  refine ⟨?_, rfl, rfl, rfl, rfl⟩
  unfold get_file
  rw [hcache]

/-- C7 (witness): with payload 7 and a warm cache holding 7, the Keras
loader serves the cache; from a cold cache two uses download once; the cnn
loader increments the download count; both abort on a failed fetch. -/
theorem c7_loader_cache_witness :
    (get_file none ⟨some 7, 5⟩ = Except.ok (7, ⟨some 7, 5⟩)) ∧
    (downloadsAfter (fetchTwice get_file (some 7) ⟨none, 0⟩) = some 1) ∧
    (getDataFetch (some 7) ⟨some 7, 5⟩ = Except.ok (7, ⟨some 7, 6⟩)) ∧
    (getDataFetch none ⟨some 7, 5⟩ = Except.error ()) ∧
    (get_file none ⟨none, 0⟩ = Except.error ()) :=
  c7_loader_cache 7 0 ⟨some 7, 5⟩ none rfl
